import Mathlib

/-!
Verification of the Wikipedia-to-Notion importer (`WTNI.py`).

This file shallowly embeds the content-partitioning and page-reassembly
pipeline of `WTNI.py`:

  * `make_block`, `make_callout`, `make_divider` (WTNI.py lines 136-166),
  * `safe_chunk_text` and `parse_html_to_blocks` (lines 169-246),
  * `extract_infobox` (lines 249-265),
  * `validate_blocks` (lines 268-291),
  * `combine_pages_into_single` together with its store helpers
    `get_database_pages` and `get_page_blocks` (lines 294-404).

Python `str` values that the code measures and slices by code point are
embedded as `List Char`; `len`, `s[i:j]`, `in` and `str.split` become the
corresponding list operations.  The Notion store is embedded as a list of
`Record`s; a network call that can raise inside the batch-append loop is
driven by an explicit `failAt` parameter.  Python's stable `list.sort(key=...)`
is embedded as `List.insertionSort`, which is likewise a stable sort.
-/

/-- Notion's rich-text character limit (`MAX_LENGTH = 2000` in
`parse_html_to_blocks` and `validate_blocks`). -/
def MAX_LENGTH : Nat := 2000

/-- A Notion block as built by the script: `make_block` produces a typed
rich-text block, `make_callout` a callout with an icon, `make_divider` a
divider with no rich text. -/
inductive Block where
  | textBlock (block_type : String) (text : List Char)
  | callout (text : List Char) (icon : String)
  | divider
deriving DecidableEq

/-- `make_block(text, block_type)` (WTNI.py lines 136-141). -/
def make_block (text : List Char) (block_type : String) : Block :=
  Block.textBlock block_type text

/-- `make_callout(text, icon)` (WTNI.py lines 144-157): text longer than 2000
characters is cut to 1997 characters plus an ellipsis. -/
def make_callout (text : List Char) (icon : String) : Block :=
  if 2000 < text.length then Block.callout (text.take 1997 ++ "...".toList) icon
  else Block.callout text icon

/-- `make_divider()` (WTNI.py lines 160-166). -/
def make_divider : Block := Block.divider

/-- The rich-text content carried by a block, if any: `block[content_key]`
has a `rich_text` entry for `make_block` and `make_callout` outputs but not
for dividers. -/
def block_rich_text : Block → Option (List Char)
  | Block.textBlock _ t => some t
  | Block.callout t _ => some t
  | Block.divider => none

/-- Fuel-driven worker for `paginate`; the fuel is an upper bound on the
length of the list, so the recursion is structural. -/
def paginateGo (n : Nat) : Nat → List α → List (List α)
  | _, [] => []
  | 0, _ :: _ => []
  | fuel + 1, a :: l => (a :: l).take n :: paginateGo n fuel ((a :: l).drop n)

/-- The slicing idiom `for i in range(0, len(xs), n): chunks.append(xs[i:i+n])`
used three times in WTNI.py: page splitting (lines 240-246), text chunking
(lines 183-189) and append batching (lines 379-385). -/
def paginate (l : List α) (n : Nat) : List (List α) :=
  paginateGo n l.length l

/-- The lengths of the slices produced by `paginate`, computed on lengths
alone (same fuel pattern as `paginateGo`). -/
def sizesGo (n : Nat) : Nat → Nat → List Nat
  | _, 0 => []
  | 0, _ + 1 => []
  | fuel + 1, len + 1 => min n (len + 1) :: sizesGo n fuel (len + 1 - n)

/-- `safe_chunk_text(text, block_type)` (WTNI.py lines 178-189): text within
the limit becomes a single block; longer text is sliced at stride 1800, each
slice clamped to `MAX_LENGTH` before being wrapped in a block. -/
def safe_chunk_text (text : List Char) (block_type : String) : List Block :=
  if text.length ≤ MAX_LENGTH then [make_block text block_type]
  else
    (paginate text 1800).map (fun chunk =>
      make_block (if MAX_LENGTH < chunk.length then chunk.take MAX_LENGTH else chunk)
        block_type)

/-- A content element found by `soup.find_all(["h2","h3","p","ul","ol","table"])`
(WTNI.py line 196), carrying the text BeautifulSoup extracts from it: heading
and paragraph text, the list-item texts of a list, or the cell texts of each
row of a table. -/
inductive HtmlElement where
  | h2 (text : List Char)
  | h3 (text : List Char)
  | p (text : List Char)
  | ul (items : List (List Char))
  | ol (items : List (List Char))
  | table (rows : List (List (List Char)))

/-- Fuel-driven worker for `remove_edit`; removes occurrences of `pat`
left to right, as Python's `str.replace(pat, "")` does. -/
def remove_occs_go (pat : List Char) : Nat → List Char → List Char
  | _, [] => []
  | 0, l => l
  | fuel + 1, c :: cs =>
    if pat.isPrefixOf (c :: cs) then remove_occs_go pat fuel ((c :: cs).drop pat.length)
    else c :: remove_occs_go pat fuel cs

/-- `text.replace("[edit]", "")` applied to headings (WTNI.py lines 198, 203). -/
def remove_edit (t : List Char) : List Char :=
  remove_occs_go "[edit]".toList t.length t

/-- Python's `str.strip()` on the serialized table text (WTNI.py lines 233-234). -/
def strip_chars (l : List Char) : List Char :=
  ((l.dropWhile Char.isWhitespace).reverse.dropWhile Char.isWhitespace).reverse

/-- The blocks contributed by one content element: the body of the
`for element in soup.find_all(...)` loop (WTNI.py lines 196-238). -/
def process_element : HtmlElement → List Block
  | HtmlElement.h2 t =>
    let text := remove_edit t
    if text ≠ [] ∧ text.length ≤ MAX_LENGTH then
      [make_divider, make_block text "heading_2"]
    else []
  | HtmlElement.h3 t =>
    let text := remove_edit t
    if text ≠ [] ∧ text.length ≤ MAX_LENGTH then [make_block text "heading_3"]
    else []
  | HtmlElement.p t =>
    if t ≠ [] ∧ 50 < t.length then safe_chunk_text t "paragraph" else []
  | HtmlElement.ul items =>
    items.flatMap (fun t =>
      if t ≠ [] ∧ 10 < t.length then
        if t.length ≤ MAX_LENGTH then [make_block t "bulleted_list_item"]
        else safe_chunk_text t "bulleted_list_item"
      else [])
  | HtmlElement.ol items =>
    items.flatMap (fun t =>
      if t ≠ [] ∧ 10 < t.length then
        if t.length ≤ MAX_LENGTH then [make_block t "numbered_list_item"]
        else safe_chunk_text t "numbered_list_item"
      else [])
  | HtmlElement.table rows =>
    let table_text :=
      (rows.map (fun cols => List.intercalate " | ".toList cols ++ "\n".toList)).flatten
    if strip_chars table_text ≠ [] then
      let t2 := strip_chars table_text
      let t3 :=
        if 1900 < t2.length then t2.take 1900 ++ "\n\n[Table truncated...]".toList
        else t2
      [make_callout ("📊 Table Data:\n\n".toList ++ t3) "📊"]
    else []

/-- The summary text of the callout always placed first (WTNI.py line 192). -/
def summary_text : List Char :=
  ("📖 This is a comprehensive Wikipedia article imported into Notion. " ++
    "Content is split across multiple pages for better organization.").toList

/-- The full flat block sequence `all_blocks` built by `parse_html_to_blocks`
(WTNI.py lines 174-238): the leading summary callout and divider followed by
the blocks of each recognized content element in document order. -/
def article_blocks (elements : List HtmlElement) : List Block :=
  make_callout summary_text "📚" :: make_divider :: elements.flatMap process_element

/-- `parse_html_to_blocks(html, max_blocks_per_page)` (WTNI.py lines 169-246):
encode the recognized content elements into blocks, then slice the flat block
sequence into page chunks of at most `max_blocks_per_page` blocks. -/
def parse_html_to_blocks (elements : List HtmlElement) (max_blocks_per_page : Nat) :
    List (List Block) :=
  paginate (article_blocks elements) max_blocks_per_page

/-- The truncation applied to one block by the loop body of `validate_blocks`
(WTNI.py lines 275-289): blocks carrying rich text are clamped to
`MAX_LENGTH`; dividers have no `rich_text` entry and pass through. -/
def validate_block : Block → Block
  | Block.textBlock ty t =>
    if MAX_LENGTH < t.length then Block.textBlock ty (t.take MAX_LENGTH)
    else Block.textBlock ty t
  | Block.callout t icon =>
    if MAX_LENGTH < t.length then Block.callout (t.take MAX_LENGTH) icon
    else Block.callout t icon
  | Block.divider => Block.divider

/-- `validate_blocks(blocks)` (WTNI.py lines 268-291). -/
def validate_blocks (blocks : List Block) : List Block :=
  blocks.map validate_block

/-- One `tr` row of the infobox table: the text of the row's first `th` and
first `td`, when present (WTNI.py lines 257-259). -/
structure InfoRow where
  th : Option (List Char)
  td : Option (List Char)
deriving DecidableEq

/-- Python dict assignment `data[key] = value`: overwrite in place if the key
is present, otherwise append, preserving insertion order. -/
def dict_insert (d : List (List Char × List Char)) (k v : List Char) :
    List (List Char × List Char) :=
  if d.any (fun p => p.1 == k) then
    d.map (fun p => if p.1 == k then (k, v) else p)
  else d ++ [(k, v)]

/-- Lookup in the insertion-ordered dict model. -/
def dict_lookup (d : List (List Char × List Char)) (k : List Char) :
    Option (List Char) :=
  (d.find? (fun p => p.1 == k)).map (fun p => p.2)

/-- `extract_infobox(html)` (WTNI.py lines 249-265): `none` stands for a page
with no `table.infobox`; otherwise the rows of the infobox are folded into a
dict, keeping only rows with both a `th` and a `td` whose texts are
non-empty. -/
def extract_infobox (infobox : Option (List InfoRow)) :
    List (List Char × List Char) :=
  match infobox with
  | none => []
  | some rows =>
    rows.foldl
      (fun data row =>
        match row.th, row.td with
        | some key, some value =>
          if key ≠ [] ∧ value ≠ [] then dict_insert data key value else data
        | _, _ => data)
      []

/-- The (key, value) pairs of the rows that `extract_infobox` accepts, in row
order. -/
def qualifying_rows (rows : List InfoRow) : List (List Char × List Char) :=
  rows.filterMap
    (fun row =>
      match row.th, row.td with
      | some key, some value =>
        if key ≠ [] ∧ value ≠ [] then some (key, value) else none
      | _, _ => none)

/-- A record of the Notion database as the script sees it: its page id, the
text of its `Name` title property, its children blocks and its archived flag. -/
structure Record where
  id : String
  name : List Char
  children : List Block
  archived : Bool
deriving DecidableEq

/-- Fuel-driven substring scan implementing Python's `sub in s`. -/
def contains_go (pat : List Char) : Nat → List Char → Bool
  | _, [] => pat.isPrefixOf []
  | 0, _ :: _ => false
  | fuel + 1, c :: cs => pat.isPrefixOf (c :: cs) || contains_go pat fuel cs

/-- Python's `sub in s` substring test. -/
def contains_sub (s pat : List Char) : Bool :=
  contains_go pat s.length s

/-- `get_database_pages(database_id, title)` (WTNI.py lines 294-312): the
Notion query with a `Name contains title` filter, embedded as a filter over
the store. -/
def get_database_pages (db : List Record) (title : List Char) : List Record :=
  db.filter (fun r => contains_sub r.name title)

/-- `get_page_blocks(page_id)` (WTNI.py lines 315-324): fetch the children of
the record with the given id. -/
def get_page_blocks (db : List Record) (pid : String) : List Block :=
  ((db.find? (fun r => r.id == pid)).map Record.children).getD []

/-- Fuel-driven split on a separator, implementing Python's `str.split(sep)`
for a non-empty separator: non-overlapping matches, scanned left to right. -/
def split_sub_go (sep : List Char) : Nat → List Char → List Char → List (List Char)
  | _, acc, [] => [acc.reverse]
  | 0, acc, l => [acc.reverse ++ l]
  | fuel + 1, acc, c :: cs =>
    if sep.isPrefixOf (c :: cs) then
      acc.reverse :: split_sub_go sep fuel [] ((c :: cs).drop sep.length)
    else split_sub_go sep fuel (c :: acc) cs

/-- Python's `s.split(sep)` for a non-empty separator. -/
def split_sub (s sep : List Char) : List (List Char) :=
  split_sub_go sep s.length [] s

/-- Python's `int(s)` restricted to strings of decimal digits; `none` models
the `ValueError` cases. -/
def chars_to_nat (l : List Char) : Option Nat :=
  if l ≠ [] ∧ l.all Char.isDigit then
    some (l.foldl (fun a c => a * 10 + (c.toNat - 48)) 0)
  else none

/-- The sort key of the part-page sort (WTNI.py line 353):
`int(name.split("(Part ")[1].split(")")[0])`, totalized with default 0. -/
def parse_part_number (name : List Char) : Nat :=
  (chars_to_nat ((split_sub ((split_sub name "(Part ".toList).getD 1 []) ")".toList).getD 0 [])).getD 0

/-- Ordering of part pages by embedded part number. -/
def part_le (a b : Record) : Prop :=
  parse_part_number a.name ≤ parse_part_number b.name

instance : DecidableRel part_le :=
  fun a b => Nat.decLe (parse_part_number a.name) (parse_part_number b.name)

instance : IsTotal Record part_le :=
  ⟨fun a b => Nat.le_total (parse_part_number a.name) (parse_part_number b.name)⟩

instance : IsTrans Record part_le :=
  ⟨fun _ _ _ hab hbc => Nat.le_trans hab hbc⟩

/-- The classification of the main page (WTNI.py lines 345-348): the loop
reassigns `main_page` on every exact title match, so the last match wins. -/
def find_main_page (pages : List Record) (title : List Char) : Option Record :=
  (pages.filter (fun p => p.name == title)).getLast?

/-- The classification of part pages (WTNI.py lines 345-350): pages whose
title is not the exact title but contains `f"{title} (Part"`. -/
def find_part_pages (pages : List Record) (title : List Char) : List Record :=
  pages.filter (fun p => !(p.name == title) && contains_sub p.name (title ++ " (Part".toList))

/-- `part_pages.sort(key=...)` (WTNI.py lines 352-353): Python's stable
ascending sort by part number, embedded as stable insertion sort. -/
def sort_part_pages (parts : List Record) : List Record :=
  List.insertionSort part_le parts

/-- The effect on the store of `notion.blocks.children.append(block_id, children)`
(WTNI.py lines 381-384): the batch is appended to the children of the record
with the given id. -/
def append_children (db : List Record) (pid : String) (blocks : List Block) :
    List Record :=
  db.map (fun r => if r.id == pid then { r with children := r.children ++ blocks } else r)

/-- The effect on the store of `notion.pages.update(page_id, archived=True)`
(WTNI.py lines 392-395). -/
def archive_page (db : List Record) (pid : String) : List Record :=
  db.map (fun r => if r.id == pid then { r with archived := true } else r)

/-- The batch-append loop (WTNI.py lines 376-385) run against the store.
`failAt = some k` makes the `k`-th append call raise; the returned Bool is
false when an exception escaped the loop.  The middle component lists the
batches whose append call completed, in issue order. -/
def run_batches (db : List Record) (pid : String) (batches : List (List Block))
    (failAt : Option Nat) (i : Nat) : List Record × List (List Block) × Bool :=
  match batches with
  | [] => (db, [], true)
  | b :: bs =>
    if failAt == some i then (db, [], false)
    else
      let res := run_batches (append_children db pid b) pid bs failAt (i + 1)
      (res.1, b :: res.2.1, res.2.2)

/-- The block sequence collected by `combine_pages_into_single` (WTNI.py
lines 359-371): the main page's current children followed by each sorted part
page's children, fetched from the store in sorted part order. -/
def collected_blocks (db : List Record) (title : List Char) (main_page : Record) :
    List Block :=
  get_page_blocks db main_page.id ++
    ((sort_part_pages (find_part_pages (get_database_pages db title) title)).map
      (fun p => get_page_blocks db p.id)).flatten

/-- `combine_pages_into_single(database_id, title, infobox_data)` (WTNI.py
lines 327-404) run against the embedded store.  Returns the Python return
value (`None` or the main page id), the final store, and the batches whose
append call was issued, in order.  The discovery, classification, sorting,
collection, batching, archiving and return-value logic follow the source
line by line; the Python local variables `pages`, `part_pages`, `all_blocks`
and the batch loop state appear here as `get_database_pages db title`,
`sort_part_pages (find_part_pages ...)`, `collected_blocks` and
`run_batches`.  The `try` of lines 374-404 catches any exception raised in
the batch-append phase and returns `None` (lines 402-404), so an append
failure surfaces as a `none` result with the partially appended store, never
as a propagated exception. -/
def combine_pages_into_single (db : List Record) (title : List Char)
    (failAt : Option Nat) : Option String × List Record × List (List Block) :=
  if (get_database_pages db title).isEmpty then (none, db, [])
  else
    match find_main_page (get_database_pages db title) title with
    | none => (none, db, [])
    | some main_page =>
      if (run_batches db main_page.id
          (paginate (collected_blocks db title main_page) 50) failAt 0).2.2 then
        (some main_page.id,
         (sort_part_pages (find_part_pages (get_database_pages db title) title)).foldl
           (fun d p => archive_page d p.id)
           (run_batches db main_page.id
             (paginate (collected_blocks db title main_page) 50) failAt 0).1,
         (run_batches db main_page.id
           (paginate (collected_blocks db title main_page) 50) failAt 0).2.1)
      else
        (none,
         (run_batches db main_page.id
           (paginate (collected_blocks db title main_page) 50) failAt 0).1,
         (run_batches db main_page.id
           (paginate (collected_blocks db title main_page) 50) failAt 0).2.1)

/-- A one-record store used to evaluate the reassembly engine on concrete
input: a single main page titled `T` holding one divider block. -/
def sample_db : List Record :=
  [{ id := "m", name := "T".toList, children := [Block.divider], archived := false }]

/-- The main page of `sample_db`. -/
def sample_main : Record :=
  { id := "m", name := "T".toList, children := [Block.divider], archived := false }

theorem paginateGo_map_length (n : Nat) :
    ∀ (fuel : Nat) (l : List α),
      (paginateGo n fuel l).map List.length = sizesGo n fuel l.length := by
  intro fuel
  induction fuel with
  | zero =>
    intro l
    cases l with
    | nil => rfl
    | cons a l => rfl
  | succ fuel ih =>
    intro l
    cases l with
    | nil => rfl
    | cons a l =>
      simp only [paginateGo, sizesGo, List.length_cons, List.map_cons]
      rw [ih, List.length_take, List.length_drop]
      rfl

theorem paginate_map_length (l : List α) (n : Nat) :
    (paginate l n).map List.length = sizesGo n l.length l.length :=
  paginateGo_map_length n l.length l

theorem paginateGo_flatten (n : Nat) (hn : 0 < n) :
    ∀ (fuel : Nat) (l : List α), l.length ≤ fuel →
      (paginateGo n fuel l).flatten = l := by
  intro fuel
  induction fuel with
  | zero =>
    intro l hl
    have : l = [] := List.length_eq_zero.mp (Nat.le_zero.mp hl)
    subst this
    rfl
  | succ fuel ih =>
    intro l hl
    cases l with
    | nil => rfl
    | cons a l =>
      simp only [paginateGo, List.flatten_cons]
      rw [ih ((a :: l).drop n) ?_, List.take_append_drop]
      have : (a :: l).length = l.length + 1 := rfl
      rw [List.length_drop]
      omega

theorem paginate_flatten (l : List α) (n : Nat) (hn : 0 < n) :
    (paginate l n).flatten = l :=
  paginateGo_flatten n hn l.length l (Nat.le_refl _)

theorem paginateGo_mem_length (n : Nat) :
    ∀ (fuel : Nat) (l : List α) (p : List α), p ∈ paginateGo n fuel l →
      p.length ≤ n := by
  intro fuel
  induction fuel with
  | zero =>
    intro l p hp
    cases l with
    | nil => simp [paginateGo] at hp
    | cons a l => simp [paginateGo] at hp
  | succ fuel ih =>
    intro l p hp
    cases l with
    | nil => simp [paginateGo] at hp
    | cons a l =>
      simp only [paginateGo, List.mem_cons] at hp
      rcases hp with h | h
      · subst h
        simp [List.length_take]
      · exact ih _ _ h

theorem paginate_mem_length (l : List α) (n : Nat) (p : List α)
    (hp : p ∈ paginate l n) : p.length ≤ n :=
  paginateGo_mem_length n l.length l p hp

theorem paginate_sum_length (l : List α) (n : Nat) (hn : 0 < n) :
    ((paginate l n).map List.length).sum = l.length := by
  rw [← List.length_flatten, paginate_flatten l n hn]

theorem validate_block_rich (b : Block) (t : List Char)
    (h : block_rich_text b = some t) :
    block_rich_text (validate_block b) =
      some (if MAX_LENGTH < t.length then t.take MAX_LENGTH else t) := by
  cases b with
  | textBlock ty s =>
    simp only [block_rich_text, Option.some.injEq] at h
    subst h
    by_cases hl : MAX_LENGTH < s.length
    · simp [validate_block, block_rich_text, hl]
    · simp [validate_block, block_rich_text, hl]
  | callout s icon =>
    simp only [block_rich_text, Option.some.injEq] at h
    subst h
    by_cases hl : MAX_LENGTH < s.length
    · simp [validate_block, block_rich_text, hl]
    · simp [validate_block, block_rich_text, hl]
  | divider => simp [block_rich_text] at h

theorem validate_block_of_le (b : Block)
    (h : ∀ t, block_rich_text b = some t → t.length ≤ MAX_LENGTH) :
    validate_block b = b := by
  cases b with
  | textBlock ty s =>
    have hs := h s rfl
    simp [validate_block, Nat.not_lt.mpr hs]
  | callout s icon =>
    have hs := h s rfl
    simp [validate_block, Nat.not_lt.mpr hs]
  | divider => rfl

theorem validate_block_idem (b : Block) :
    validate_block (validate_block b) = validate_block b := by
  apply validate_block_of_le
  intro t ht
  cases b with
  | textBlock ty s =>
    by_cases hl : MAX_LENGTH < s.length
    · simp only [validate_block, if_pos hl, block_rich_text, Option.some.injEq] at ht
      subst ht
      simp [List.length_take]
    · simp only [validate_block, if_neg hl, block_rich_text, Option.some.injEq] at ht
      subst ht
      exact Nat.not_lt.mp hl
  | callout s icon =>
    by_cases hl : MAX_LENGTH < s.length
    · simp only [validate_block, if_pos hl, block_rich_text, Option.some.injEq] at ht
      subst ht
      simp [List.length_take]
    · simp only [validate_block, if_neg hl, block_rich_text, Option.some.injEq] at ht
      subst ht
      exact Nat.not_lt.mp hl
  | divider => simp [validate_block, block_rich_text] at ht

theorem find?_map_overwrite (k v : List Char) :
    ∀ d : List (List Char × List Char), d.any (fun p => p.1 == k) = true →
      (d.map (fun p => if p.1 == k then (k, v) else p)).find? (fun p => p.1 == k) =
        some (k, v) := by
  intro d
  induction d with
  | nil => intro h; simp at h
  | cons p d ih =>
    intro h
    rw [List.map_cons]
    by_cases hp : (p.1 == k) = true
    · rw [if_pos hp]
      exact @List.find?_cons_of_pos _ (fun q => q.1 == k) (k, v) _ (beq_self_eq_true k)
    · have hp' : (p.1 == k) = false := Bool.eq_false_iff.mpr hp
      have hany : d.any (fun p => p.1 == k) = true := by
        simp only [List.any_cons, hp', Bool.false_or] at h
        exact h
      rw [if_neg hp, @List.find?_cons_of_neg _ (fun q => q.1 == k) p _ hp]
      exact ih hany

theorem find?_map_overwrite_ne (k v k2 : List Char) (hk : (k == k2) = false) :
    ∀ d : List (List Char × List Char),
      (d.map (fun p => if p.1 == k then (k, v) else p)).find? (fun p => p.1 == k2) =
        d.find? (fun p => p.1 == k2) := by
  intro d
  induction d with
  | nil => rfl
  | cons p d ih =>
    rw [List.map_cons]
    by_cases hp : (p.1 == k) = true
    · have hpk : p.1 = k := eq_of_beq hp
      have hp2 : ¬((p.1 == k2) = true) := by rw [hpk, hk]; exact Bool.false_ne_true
      have hkv2 : ¬(((k, v) : List Char × List Char).1 == k2) = true := by
        rw [hk]; exact Bool.false_ne_true
      rw [if_pos hp, @List.find?_cons_of_neg _ (fun q => q.1 == k2) (k, v) _ hkv2,
        @List.find?_cons_of_neg _ (fun q => q.1 == k2) p _ hp2]
      exact ih
    · rw [if_neg hp]
      by_cases hp2 : (p.1 == k2) = true
      · rw [@List.find?_cons_of_pos _ (fun q => q.1 == k2) p _ hp2,
          @List.find?_cons_of_pos _ (fun q => q.1 == k2) p _ hp2]
      · rw [@List.find?_cons_of_neg _ (fun q => q.1 == k2) p _ hp2,
          @List.find?_cons_of_neg _ (fun q => q.1 == k2) p _ hp2]
        exact ih

theorem dict_lookup_insert_self (d : List (List Char × List Char)) (k v : List Char) :
    dict_lookup (dict_insert d k v) k = some v := by
  unfold dict_insert dict_lookup
  by_cases h : d.any (fun p => p.1 == k) = true
  · rw [if_pos h, find?_map_overwrite k v d h]
    rfl
  · rw [if_neg h, List.find?_append]
    have hnone : d.find? (fun p => p.1 == k) = none := by
      rw [List.find?_eq_none]
      intro x hx hpx
      exact h (List.any_eq_true.mpr ⟨x, hx, hpx⟩)
    rw [hnone, @List.find?_cons_of_pos _ (fun q => q.1 == k) (k, v) _ (beq_self_eq_true k)]
    rfl

theorem dict_lookup_insert_ne (d : List (List Char × List Char)) (k v k2 : List Char)
    (hk : (k == k2) = false) :
    dict_lookup (dict_insert d k v) k2 = dict_lookup d k2 := by
  unfold dict_insert dict_lookup
  by_cases h : d.any (fun p => p.1 == k) = true
  · rw [if_pos h, find?_map_overwrite_ne k v k2 hk d]
  · rw [if_neg h, List.find?_append]
    have hkv2 : ¬(((k, v) : List Char × List Char).1 == k2) = true := by
      rw [hk]; exact Bool.false_ne_true
    rw [@List.find?_cons_of_neg _ (fun q => q.1 == k2) (k, v) _ hkv2]
    cases List.find? (fun p => p.1 == k2) d <;> rfl

theorem extract_fold_general :
    ∀ (rows : List InfoRow) (d : List (List Char × List Char)),
      rows.foldl
        (fun data row =>
          match row.th, row.td with
          | some key, some value =>
            if key ≠ [] ∧ value ≠ [] then dict_insert data key value else data
          | _, _ => data) d =
      (qualifying_rows rows).foldl (fun data p => dict_insert data p.1 p.2) d := by
  intro rows
  induction rows with
  | nil => intro d; rfl
  | cons row rows ih =>
    intro d
    rw [List.foldl_cons]
    cases hth : row.th with
    | none =>
      simp only [qualifying_rows, List.filterMap_cons, hth]
      exact ih d
    | some key =>
      cases htd : row.td with
      | none =>
        simp only [qualifying_rows, List.filterMap_cons, hth, htd]
        exact ih d
      | some value =>
        by_cases hkv : key ≠ [] ∧ value ≠ []
        · simp only [qualifying_rows, List.filterMap_cons, hth, htd, if_pos hkv,
            List.foldl_cons]
          exact ih (dict_insert d key value)
        · simp only [qualifying_rows, List.filterMap_cons, hth, htd, if_neg hkv]
          exact ih d

theorem extract_eq_fold (rows : List InfoRow) :
    extract_infobox (some rows) =
      (qualifying_rows rows).foldl (fun data p => dict_insert data p.1 p.2) [] :=
  extract_fold_general rows []

theorem fold_dict_lookup :
    ∀ (q : List (List Char × List Char)) (d : List (List Char × List Char))
      (k : List Char),
      dict_lookup (q.foldl (fun data p => dict_insert data p.1 p.2) d) k =
        ((q.reverse.find? (fun p => p.1 == k)).map (fun p => p.2)).or
          (dict_lookup d k) := by
  intro q
  induction q with
  | nil =>
    intro d k
    simp [Option.none_or]
  | cons p q ih =>
    intro d k
    rw [List.foldl_cons, ih, List.reverse_cons, List.find?_append]
    cases hq : q.reverse.find? (fun x => x.1 == k) with
    | some x => rfl
    | none =>
      rw [Option.none_or]
      by_cases hpk : (p.1 == k) = true
      · have hp1 : p.1 = k := eq_of_beq hpk
        rw [@List.find?_cons_of_pos _ (fun x => x.1 == k) p _ hpk]
        have : dict_lookup (dict_insert d p.1 p.2) k = some p.2 := by
          rw [hp1]
          exact dict_lookup_insert_self d k p.2
        rw [this]
        rfl
      · have hpk' : (p.1 == k) = false := Bool.eq_false_iff.mpr hpk
        rw [@List.find?_cons_of_neg _ (fun x => x.1 == k) p _ hpk]
        rw [dict_lookup_insert_ne d p.1 p.2 k hpk']
        rfl

theorem dict_insert_mem (d : List (List Char × List Char)) (k v : List Char)
    (p : List Char × List Char) (hp : p ∈ dict_insert d k v) :
    p ∈ d ∨ p = (k, v) := by
  unfold dict_insert at hp
  by_cases h : d.any (fun x => x.1 == k) = true
  · rw [if_pos h] at hp
    rcases List.mem_map.mp hp with ⟨q, hq, hqe⟩
    by_cases hqk : (q.1 == k) = true
    · rw [if_pos hqk] at hqe
      exact Or.inr hqe.symm
    · rw [if_neg hqk] at hqe
      exact Or.inl (hqe ▸ hq)
  · rw [if_neg h] at hp
    rcases List.mem_append.mp hp with h1 | h1
    · exact Or.inl h1
    · rcases List.mem_singleton.mp h1 with h2
      exact Or.inr h2

theorem fold_dict_mem :
    ∀ (q : List (List Char × List Char)) (d : List (List Char × List Char))
      (p : List Char × List Char),
      p ∈ q.foldl (fun data x => dict_insert data x.1 x.2) d → p ∈ d ∨ p ∈ q := by
  intro q
  induction q with
  | nil => intro d p hp; exact Or.inl hp
  | cons x q ih =>
    intro d p hp
    rw [List.foldl_cons] at hp
    rcases ih (dict_insert d x.1 x.2) p hp with h | h
    · rcases dict_insert_mem d x.1 x.2 p h with h1 | h1
      · exact Or.inl h1
      · exact Or.inr (h1 ▸ List.mem_cons_self x q)
    · exact Or.inr (List.mem_cons_of_mem x h)

theorem append_children_nil (db : List Record) (pid : String) :
    append_children db pid [] = db := by
  unfold append_children
  have h : ∀ r ∈ db,
      (if r.id == pid then { r with children := r.children ++ [] } else r) = r := by
    intro r hr
    by_cases hid : (r.id == pid) = true
    · rw [if_pos hid, List.append_nil]
    · rw [if_neg hid]
  rw [List.map_congr_left h]
  simp

theorem append_children_append (db : List Record) (pid : String)
    (a b : List Block) :
    append_children (append_children db pid a) pid b =
      append_children db pid (a ++ b) := by
  unfold append_children
  rw [List.map_map]
  apply List.map_congr_left
  intro r hr
  by_cases hid : (r.id == pid) = true
  · simp only [Function.comp_apply, if_pos hid]
    rw [List.append_assoc]
  · simp only [Function.comp_apply, if_neg hid]

theorem foldl_append_children (pid : String) :
    ∀ (batches : List (List Block)) (db : List Record),
      batches.foldl (fun d b => append_children d pid b) db =
        append_children db pid batches.flatten := by
  intro batches
  induction batches with
  | nil => intro db; rw [List.foldl_nil, List.flatten_nil, append_children_nil]
  | cons b bs ih =>
    intro db
    rw [List.foldl_cons, ih, List.flatten_cons, ← append_children_append]

theorem run_batches_none (pid : String) :
    ∀ (batches : List (List Block)) (db : List Record) (i : Nat),
      run_batches db pid batches none i =
        (append_children db pid batches.flatten, batches, true) := by
  intro batches
  induction batches with
  | nil =>
    intro db i
    rw [run_batches, List.flatten_nil, append_children_nil]
  | cons b bs ih =>
    intro db i
    rw [run_batches]
    have hne : ((none : Option Nat) == some i) = false := rfl
    rw [if_neg (by rw [hne]; exact Bool.false_ne_true)]
    rw [ih (append_children db pid b) (i + 1)]
    rw [List.flatten_cons, ← append_children_append]

theorem run_batches_fail (pid : String) :
    ∀ (batches : List (List Block)) (db : List Record) (i k : Nat),
      i ≤ k → k - i < batches.length →
      (run_batches db pid batches (some k) i).2.2 = false := by
  intro batches
  induction batches with
  | nil =>
    intro db i k hik hlt
    simp at hlt
  | cons b bs ih =>
    intro db i k hik hlt
    rw [run_batches]
    by_cases hk : ((some k : Option Nat) == some i) = true
    · rw [if_pos hk]
    · rw [if_neg hk]
      have hne : k ≠ i := by
        intro hcontra
        exact hk (by rw [hcontra]; exact beq_self_eq_true (some i))
      have h1 : i + 1 ≤ k := by omega
      have h2 : k - (i + 1) < bs.length := by
        rw [List.length_cons] at hlt
        omega
      exact ih (append_children db pid b) (i + 1) k h1 h2

theorem mem_of_getLast_some {l : List Record} {a : Record}
    (h : l.getLast? = some a) : a ∈ l := by
  rcases List.mem_getLast?_eq_getLast (Option.mem_def.mpr h) with ⟨hne, heq⟩
  rw [heq]
  exact List.getLast_mem hne

theorem mem_of_find_main {pages : List Record} {title : List Char}
    {main_page : Record} (h : find_main_page pages title = some main_page) :
    main_page ∈ pages := by
  unfold find_main_page at h
  exact (List.mem_filter.mp (mem_of_getLast_some h)).1

theorem mem_db_of_pages {db : List Record} {title : List Char} {r : Record}
    (h : r ∈ get_database_pages db title) : r ∈ db :=
  (List.mem_filter.mp h).1

theorem mem_db_of_part {db : List Record} {title : List Char} {p : Record}
    (h : p ∈ sort_part_pages (find_part_pages (get_database_pages db title) title)) :
    p ∈ db := by
  unfold sort_part_pages at h
  have h1 : p ∈ find_part_pages (get_database_pages db title) title :=
    ((List.perm_insertionSort part_le _).mem_iff).mp h
  exact mem_db_of_pages (List.mem_filter.mp h1).1

theorem find?_id_of_nodup :
    ∀ (db : List Record) (main_page : Record),
      (db.map Record.id).Nodup → main_page ∈ db →
      db.find? (fun r => r.id == main_page.id) = some main_page := by
  intro db
  induction db with
  | nil => intro main_page hnd hm; simp at hm
  | cons r db ih =>
    intro main_page hnd hm
    rcases List.mem_cons.mp hm with h | h
    · subst h
      exact @List.find?_cons_of_pos _ (fun x => x.id == main_page.id) main_page _
        (beq_self_eq_true main_page.id)
    · have hnd' : (r.id :: db.map Record.id).Nodup := by
        rw [List.map_cons] at hnd
        exact hnd
      have hnd2 := List.nodup_cons.mp hnd'
      have hrid : ¬((r.id == main_page.id) = true) := by
        intro hcontra
        have : r.id = main_page.id := eq_of_beq hcontra
        exact hnd2.1 (this ▸ List.mem_map.mpr ⟨main_page, h, rfl⟩)
      rw [@List.find?_cons_of_neg _ (fun x => x.id == main_page.id) r _ hrid]
      exact ih main_page hnd2.2 h

theorem get_page_blocks_of_mem {db : List Record} {r : Record}
    (hnd : (db.map Record.id).Nodup) (hm : r ∈ db) :
    get_page_blocks db r.id = r.children := by
  unfold get_page_blocks
  rw [find?_id_of_nodup db r hnd hm]
  rfl

theorem find?_map_idpres (g : Record → Record) (hg : ∀ r, (g r).id = r.id)
    (db : List Record) (pid : String) :
    (db.map g).find? (fun r => r.id == pid) =
      Option.map g (db.find? (fun r => r.id == pid)) := by
  rw [List.find?_map]
  have : ((fun r : Record => r.id == pid) ∘ g) = (fun r : Record => r.id == pid) := by
    funext r
    simp [Function.comp_apply, hg r]
  rw [this]

theorem find?_append_children (db : List Record) (pid : String) (blocks : List Block)
    (r : Record) (h : db.find? (fun x => x.id == pid) = some r) :
    (append_children db pid blocks).find? (fun x => x.id == pid) =
      some { r with children := r.children ++ blocks } := by
  unfold append_children
  rw [find?_map_idpres]
  · rw [h]
    have hr := List.find?_some h
    show some (if r.id == pid then { r with children := r.children ++ blocks } else r) =
      some { r with children := r.children ++ blocks }
    rw [if_pos hr]
  · intro x
    by_cases hx : (x.id == pid) = true
    · rw [if_pos hx]
    · rw [if_neg hx]

theorem find?_foldl_archive :
    ∀ (parts : List Record) (db : List Record) (pid : String) (r : Record),
      db.find? (fun x => x.id == pid) = some r →
      ∃ r2, (parts.foldl (fun d p => archive_page d p.id) db).find?
          (fun x => x.id == pid) = some r2 ∧ r2.children = r.children := by
  intro parts
  induction parts with
  | nil => intro db pid r h; exact ⟨r, h, rfl⟩
  | cons p ps ih =>
    intro db pid r h
    rw [List.foldl_cons]
    have harch : (archive_page db p.id).find? (fun x => x.id == pid) =
        some (if r.id == p.id then { r with archived := true } else r) := by
      unfold archive_page
      rw [find?_map_idpres]
      · rw [h]
        rfl
      · intro x
        by_cases hx : (x.id == p.id) = true
        · rw [if_pos hx]
        · rw [if_neg hx]
    rcases ih (archive_page db p.id) pid _ harch with ⟨r2, h2, hch⟩
    refine ⟨r2, h2, hch.trans ?_⟩
    by_cases hid : (r.id == p.id) = true
    · rw [if_pos hid]
    · rw [if_neg hid]

theorem paginate_flatten_50 (l : List α) : (paginate l 50).flatten = l :=
  paginate_flatten l 50 (by omega)

theorem combine_pages_success (db : List Record) (title : List Char)
    (main_page : Record)
    (hne : get_database_pages db title ≠ [])
    (hmain : find_main_page (get_database_pages db title) title = some main_page) :
    combine_pages_into_single db title none =
      (some main_page.id,
       (sort_part_pages (find_part_pages (get_database_pages db title) title)).foldl
         (fun d p => archive_page d p.id)
         (append_children db main_page.id (collected_blocks db title main_page)),
       paginate (collected_blocks db title main_page) 50) := by
  have hE : ¬((get_database_pages db title).isEmpty = true) := by
    rw [Bool.not_eq_true, List.isEmpty_eq_false]
    exact hne
  unfold combine_pages_into_single
  rw [if_neg hE, hmain]
  simp only [run_batches_none, paginate_flatten_50]
  rw [if_pos trivial]

theorem sizes_length_50 :
    ∀ (fuel len : Nat), len ≤ fuel →
      (sizesGo 50 fuel len).length = (len + 49) / 50 := by
  intro fuel
  induction fuel with
  | zero =>
    intro len h
    have hz : len = 0 := by omega
    subst hz
    rfl
  | succ fuel ih =>
    intro len h
    cases len with
    | zero => rfl
    | succ m =>
      show (min 50 (m + 1) :: sizesGo 50 fuel (m + 1 - 50)).length = (m + 1 + 49) / 50
      rw [List.length_cons, ih (m + 1 - 50) (by omega)]
      omega

theorem paginate_length_50 (l : List α) :
    (paginate l 50).length = (l.length + 49) / 50 := by
  have h := congrArg List.length (paginate_map_length l 50)
  rw [List.length_map] at h
  rw [h, sizes_length_50 l.length l.length (Nat.le_refl _)]

theorem validate_block_rich_le (b : Block) (t : List Char)
    (h : block_rich_text (validate_block b) = some t) : t.length ≤ MAX_LENGTH := by
  cases b with
  | textBlock ty s =>
    by_cases hl : MAX_LENGTH < s.length
    · simp only [validate_block, if_pos hl, block_rich_text, Option.some.injEq] at h
      subst h
      simp [List.length_take]
    · simp only [validate_block, if_neg hl, block_rich_text, Option.some.injEq] at h
      subst h
      exact Nat.not_lt.mp hl
  | callout s icon =>
    by_cases hl : MAX_LENGTH < s.length
    · simp only [validate_block, if_pos hl, block_rich_text, Option.some.injEq] at h
      subst h
      simp [List.length_take]
    · simp only [validate_block, if_neg hl, block_rich_text, Option.some.injEq] at h
      subst h
      exact Nat.not_lt.mp hl
  | divider => simp [validate_block, block_rich_text] at h

/-- C2: for every flat block sequence and every positive `max_blocks_per_page`,
the paginator of `parse_html_to_blocks` produces pages each of length at most
`max_blocks_per_page`, the page lengths sum to the input length, and
concatenating the pages in order reproduces the input sequence exactly; a
200-block sequence with `max_blocks_per_page = 90` yields exactly pages of
sizes 90, 90, 20. -/
theorem paginator_invariants :
    (∀ (blocks : List Block) (n : Nat), 0 < n →
      (∀ p ∈ paginate blocks n, p.length ≤ n) ∧
      ((paginate blocks n).map List.length).sum = blocks.length ∧
      (paginate blocks n).flatten = blocks) ∧
    (∀ blocks : List Block, blocks.length = 200 →
      (paginate blocks 90).map List.length = [90, 90, 20]) := by
  constructor
  · intro blocks n hn
    exact ⟨fun p hp => paginate_mem_length blocks n p hp,
      paginate_sum_length blocks n hn, paginate_flatten blocks n hn⟩
  · intro blocks h
    rw [paginate_map_length, h]
    decide

/-- Witness for C2 at a concrete 200-block input. -/
theorem paginator_invariants_witness :
    (paginate (List.replicate 200 Block.divider) 90).map List.length =
      [90, 90, 20] :=
  paginator_invariants.2 (List.replicate 200 Block.divider)
    (by rw [List.length_replicate])

/-- C5: for every text string longer than `MAX_LENGTH`, `safe_chunk_text`
splits it at a fixed stride of 1800 characters into ordered sub-blocks of the
same kind, each of length at most `MAX_LENGTH`, whose texts concatenate back
to the original string; a 4500-character text yields exactly 3 blocks. -/
theorem safe_chunk_text_spec (t : List Char) (ty : String)
    (h : MAX_LENGTH < t.length) :
    (∀ b ∈ safe_chunk_text t ty, ∃ c, b = make_block c ty ∧ c.length ≤ MAX_LENGTH) ∧
    ((safe_chunk_text t ty).map (fun b => (block_rich_text b).getD [])).flatten = t ∧
    (t.length = 4500 → (safe_chunk_text t ty).length = 3) := by
  have hns : ¬(t.length ≤ MAX_LENGTH) := Nat.not_le.mpr h
  unfold safe_chunk_text
  rw [if_neg hns]
  refine ⟨?_, ?_, ?_⟩
  · intro b hb
    rcases List.mem_map.mp hb with ⟨chunk, hc, he⟩
    have hcl : chunk.length ≤ 1800 := paginate_mem_length t 1800 chunk hc
    have hnc : ¬(MAX_LENGTH < chunk.length) := by
      unfold MAX_LENGTH
      omega
    rw [if_neg hnc] at he
    refine ⟨chunk, he.symm, ?_⟩
    unfold MAX_LENGTH
    omega
  · rw [List.map_map]
    have hcongr : ∀ chunk ∈ paginate t 1800,
        ((fun b => (block_rich_text b).getD []) ∘ fun chunk =>
          make_block
            (if MAX_LENGTH < chunk.length then chunk.take MAX_LENGTH else chunk)
            ty) chunk = id chunk := by
      intro chunk hc
      have hcl : chunk.length ≤ 1800 := paginate_mem_length t 1800 chunk hc
      have hnc : ¬(MAX_LENGTH < chunk.length) := by
        unfold MAX_LENGTH
        omega
      show (if MAX_LENGTH < chunk.length then chunk.take MAX_LENGTH else chunk) = chunk
      rw [if_neg hnc]
    rw [List.map_congr_left hcongr, List.map_id]
    exact paginate_flatten t 1800 (by omega)
  · intro h45
    rw [List.length_map]
    have h3 := congrArg List.length (paginate_map_length t 1800)
    rw [List.length_map] at h3
    rw [h3, h45]
    decide

/-- Witness for C5 at a concrete 4500-character paragraph. -/
theorem safe_chunk_text_spec_witness :
    (safe_chunk_text (List.replicate 4500 'a') "paragraph").length = 3 :=
  (safe_chunk_text_spec (List.replicate 4500 'a') "paragraph"
      (by rw [List.length_replicate]; decide)).2.2
    (by rw [List.length_replicate])

/-- C4: for every block list given to `validate_blocks`, every output block
carrying rich text has text of length at most `MAX_LENGTH`; an over-length
text is truncated to exactly `MAX_LENGTH` characters in place, and no block
is dropped. -/
theorem validate_blocks_guard (blocks : List Block) :
    (validate_blocks blocks).length = blocks.length ∧
    (∀ b ∈ validate_blocks blocks, ∀ t, block_rich_text b = some t →
      t.length ≤ MAX_LENGTH) ∧
    (∀ (i : Nat) (b : Block) (t : List Char), blocks[i]? = some b →
      block_rich_text b = some t → MAX_LENGTH < t.length →
      (validate_blocks blocks)[i]? = some (validate_block b) ∧
      block_rich_text (validate_block b) = some (t.take MAX_LENGTH) ∧
      (t.take MAX_LENGTH).length = MAX_LENGTH) := by
  refine ⟨List.length_map _ _, ?_, ?_⟩
  · intro b hb t ht
    rcases List.mem_map.mp hb with ⟨a, _, hae⟩
    subst hae
    exact validate_block_rich_le a t ht
  · intro i b t hi hbt hlt
    refine ⟨?_, ?_, ?_⟩
    · unfold validate_blocks
      rw [List.getElem?_map, hi]
      rfl
    · rw [validate_block_rich b t hbt, if_pos hlt]
    · rw [List.length_take]
      exact Nat.min_eq_left (Nat.le_of_lt hlt)

/-- Witness for C4 at a concrete over-length paragraph block. -/
theorem validate_blocks_guard_witness :
    (validate_blocks [Block.textBlock "paragraph" (List.replicate 2500 'a')])[0]? =
      some (validate_block (Block.textBlock "paragraph" (List.replicate 2500 'a'))) :=
  ((validate_blocks_guard [Block.textBlock "paragraph" (List.replicate 2500 'a')]).2.2
    0 (Block.textBlock "paragraph" (List.replicate 2500 'a'))
    (List.replicate 2500 'a') rfl rfl
    (by rw [List.length_replicate]; decide)).1

/-- C10: `validate_blocks` is idempotent and structure-preserving: its output
has the same length and order as its input, a block whose rich text is already
within `MAX_LENGTH` passes through unchanged at its position, and applying
`validate_blocks` twice equals applying it once. -/
theorem validate_blocks_idempotent (blocks : List Block) :
    (validate_blocks blocks).length = blocks.length ∧
    (∀ (i : Nat) (b : Block), blocks[i]? = some b →
      (∀ t, block_rich_text b = some t → t.length ≤ MAX_LENGTH) →
      (validate_blocks blocks)[i]? = some b) ∧
    validate_blocks (validate_blocks blocks) = validate_blocks blocks := by
  refine ⟨List.length_map _ _, ?_, ?_⟩
  · intro i b hi hle
    unfold validate_blocks
    rw [List.getElem?_map, hi]
    show some (validate_block b) = some b
    rw [validate_block_of_le b hle]
  · unfold validate_blocks
    rw [List.map_map]
    apply List.map_congr_left
    intro b _
    exact validate_block_idem b

/-- Witness for C10 at a concrete block list. -/
theorem validate_blocks_idempotent_witness :
    (validate_blocks [Block.divider, Block.textBlock "paragraph" "short".toList])[1]? =
      some (Block.textBlock "paragraph" "short".toList) :=
  (validate_blocks_idempotent
      [Block.divider, Block.textBlock "paragraph" "short".toList]).2.1 1
    (Block.textBlock "paragraph" "short".toList) rfl
    (by intro t ht; cases ht; decide)

/-- C3 counterexample: an input with no recognized content elements does not
encode to an empty block sequence — `parse_html_to_blocks` always emits the
leading summary callout and divider (WTNI.py lines 192-193). -/
theorem parse_html_no_content_cex :
    (parse_html_to_blocks [] 90).flatten ≠ [] := by decide

/-- C3 (amended): for an input with no recognized content elements,
`parse_html_to_blocks` yields, without raising, a block sequence consisting of
exactly the leading summary callout and divider and no content blocks. -/
theorem parse_html_no_content (n : Nat) (hn : 0 < n) :
    (parse_html_to_blocks [] n).flatten =
      [make_callout summary_text "📚", make_divider] := by
  unfold parse_html_to_blocks
  rw [paginate_flatten _ n hn]
  rfl

/-- Witness for the amended C3 at the default page size 90. -/
theorem parse_html_no_content_witness :
    (parse_html_to_blocks [] 90).flatten =
      [make_callout summary_text "📚", make_divider] :=
  parse_html_no_content 90 (by decide)

/-- C6: the reassembly engine sorts part pages ascending by the integer parsed
from the `(Part n)` suffix of their display name — a numeric sort, not a
lexical one — so auxiliaries named `(Part 2)`, `(Part 10)`, `(Part 3)` come
out in part order 2, 3, 10. -/
theorem sort_part_pages_numeric :
    (∀ parts : List Record,
      List.Sorted part_le (sort_part_pages parts) ∧
      List.Perm (sort_part_pages parts) parts) ∧
    (sort_part_pages
        [{ id := "a", name := "X (Part 2)".toList, children := [], archived := false },
         { id := "b", name := "X (Part 10)".toList, children := [], archived := false },
         { id := "c", name := "X (Part 3)".toList, children := [], archived := false }]).map
      (fun r => parse_part_number r.name) = [2, 3, 10] := by
  constructor
  · intro parts
    exact ⟨List.sorted_insertionSort part_le parts,
      List.perm_insertionSort part_le parts⟩
  · decide

/-- C8: `extract_infobox` returns the empty mapping when there is no infobox
table, builds its mapping only from rows with a non-empty header and data
cell, resolves duplicate keys last-write-wins, and on the rows
`("Born", "1 Jan 1900"), ("", "ignored"), ("Died", "2 Feb 2000")` extracts
exactly the `Born` and `Died` pairs. -/
theorem extract_infobox_spec :
    extract_infobox none = [] ∧
    (∀ (rows : List InfoRow) (k : List Char),
      dict_lookup (extract_infobox (some rows)) k =
        ((qualifying_rows rows).reverse.find? (fun p => p.1 == k)).map
          (fun p => p.2)) ∧
    (∀ (rows : List InfoRow) (p : List Char × List Char),
      p ∈ extract_infobox (some rows) → p ∈ qualifying_rows rows) ∧
    extract_infobox
        (some [{ th := some "Born".toList, td := some "1 Jan 1900".toList },
               { th := some [], td := some "ignored".toList },
               { th := some "Died".toList, td := some "2 Feb 2000".toList }]) =
      [("Born".toList, "1 Jan 1900".toList), ("Died".toList, "2 Feb 2000".toList)] := by
  refine ⟨rfl, ?_, ?_, by decide⟩
  · intro rows k
    rw [extract_eq_fold, fold_dict_lookup]
    rw [show dict_lookup [] k = none from rfl, Option.or_none]
  · intro rows p hp
    rw [extract_eq_fold] at hp
    rcases fold_dict_mem (qualifying_rows rows) [] p hp with h | h
    · simp at h
    · exact h

/-- Witness for C8: the last-write-wins lookup law evaluated on a concrete
infobox. -/
theorem extract_infobox_spec_witness :
    dict_lookup
        (extract_infobox
          (some [{ th := some "Born".toList, td := some "1 Jan 1900".toList }]))
        "Born".toList =
      some "1 Jan 1900".toList :=
  (extract_infobox_spec.2.1
      [{ th := some "Born".toList, td := some "1 Jan 1900".toList }]
      "Born".toList).trans (by decide)

/-- C7: under a successful reassembly, the re-append step issues
`ceil(N / 50)` append calls strictly in order, each carrying the next
contiguous slice of at most 50 collected blocks, and 237 collected blocks
produce call sizes 50, 50, 50, 50, 37 in that order. -/
theorem reappend_batches_spec (db : List Record) (title : List Char)
    (main_page : Record)
    (hne : get_database_pages db title ≠ [])
    (hmain : find_main_page (get_database_pages db title) title = some main_page) :
    (combine_pages_into_single db title none).2.2 =
      paginate (collected_blocks db title main_page) 50 ∧
    ((combine_pages_into_single db title none).2.2).length =
      ((collected_blocks db title main_page).length + 49) / 50 ∧
    (∀ c ∈ (combine_pages_into_single db title none).2.2, c.length ≤ 50) ∧
    ((combine_pages_into_single db title none).2.2).flatten =
      collected_blocks db title main_page ∧
    ((collected_blocks db title main_page).length = 237 →
      ((combine_pages_into_single db title none).2.2).map List.length =
        [50, 50, 50, 50, 37]) := by
  rw [combine_pages_success db title main_page hne hmain]
  refine ⟨rfl, paginate_length_50 _, ?_, paginate_flatten_50 _, ?_⟩
  · intro c hc
    exact paginate_mem_length _ _ _ hc
  · intro h237
    rw [paginate_map_length, h237]
    decide

/-- Witness for C7 on the concrete one-page store. -/
theorem reappend_batches_spec_witness :
    ((combine_pages_into_single sample_db "T".toList none).2.2).flatten =
      collected_blocks sample_db "T".toList sample_main :=
  (reappend_batches_spec sample_db "T".toList sample_main (by decide)
    (by decide)).2.2.2.1

/-- C1 counterexample: on a store holding only a primary record with one
divider child and no auxiliaries, the claim predicts the primary ends with
children `[divider]` (original children plus an empty auxiliary
concatenation), but after `combine_pages_into_single` the primary holds
`[divider, divider]`: the engine re-appends the primary's own collected
children onto the primary. -/
theorem reassembly_completeness_cex :
    (((combine_pages_into_single sample_db "T".toList none).2.1).find?
        (fun r => r.id == "m")).map Record.children =
      some [Block.divider, Block.divider] ∧
    ¬(((combine_pages_into_single sample_db "T".toList none).2.1).find?
        (fun r => r.id == "m")).map Record.children = some [Block.divider] := by
  decide

/-- C1 (amended): after `combine_pages_into_single` completes successfully,
the primary record's children sequence equals its original children followed
by the whole collected sequence — original primary children, then the
auxiliary children in ascending part order — so the primary's original
children occur twice. -/
theorem combine_children_after_reassembly (db : List Record) (title : List Char)
    (main_page : Record)
    (hnd : (db.map Record.id).Nodup)
    (hne : get_database_pages db title ≠ [])
    (hmain : find_main_page (get_database_pages db title) title = some main_page) :
    ∃ r, ((combine_pages_into_single db title none).2.1).find?
        (fun x => x.id == main_page.id) = some r ∧
      r.children = main_page.children ++ (main_page.children ++
        ((sort_part_pages (find_part_pages (get_database_pages db title) title)).map
          Record.children).flatten) := by
  have hm : main_page ∈ db := mem_db_of_pages (mem_of_find_main hmain)
  have hfind : db.find? (fun x => x.id == main_page.id) = some main_page :=
    find?_id_of_nodup db main_page hnd hm
  have hcoll : collected_blocks db title main_page =
      main_page.children ++
        ((sort_part_pages (find_part_pages (get_database_pages db title) title)).map
          Record.children).flatten := by
    unfold collected_blocks
    rw [get_page_blocks_of_mem hnd hm]
    have hparts : (sort_part_pages
          (find_part_pages (get_database_pages db title) title)).map
        (fun p => get_page_blocks db p.id) =
        (sort_part_pages
          (find_part_pages (get_database_pages db title) title)).map
        Record.children := by
      apply List.map_congr_left
      intro p hp
      exact get_page_blocks_of_mem hnd (mem_db_of_part hp)
    rw [hparts]
  rw [combine_pages_success db title main_page hne hmain]
  have happ := find?_append_children db main_page.id
    (collected_blocks db title main_page) main_page hfind
  rcases find?_foldl_archive
      (sort_part_pages (find_part_pages (get_database_pages db title) title))
      (append_children db main_page.id (collected_blocks db title main_page))
      main_page.id _ happ with ⟨r2, h2, hch⟩
  refine ⟨r2, h2, ?_⟩
  rw [hch]
  show main_page.children ++ collected_blocks db title main_page = _
  rw [hcoll]

/-- Witness for the amended C1 on the concrete one-page store. -/
theorem combine_children_after_reassembly_witness :
    ∃ r, ((combine_pages_into_single sample_db "T".toList none).2.1).find?
        (fun x => x.id == sample_main.id) = some r ∧
      r.children = sample_main.children ++ (sample_main.children ++
        ((sort_part_pages
          (find_part_pages (get_database_pages sample_db "T".toList) "T".toList)).map
          Record.children).flatten) :=
  combine_children_after_reassembly sample_db "T".toList sample_main
    (by decide) (by decide) (by decide)

/-- C9 counterexample: on the concrete one-page store, making the first (and
only) batch-append call raise does not propagate an exception out of
`combine_pages_into_single`: the `except` of WTNI.py lines 402-404 catches it
and the function returns the sentinel `None`, while the same input without
the failure returns the primary id. -/
theorem combine_append_failure_cex :
    (combine_pages_into_single sample_db "T".toList (some 0)).1 = none ∧
    (combine_pages_into_single sample_db "T".toList none).1 = some "m" := by
  decide

/-- C9 (amended): `combine_pages_into_single` returns the primary record's id
on success and the sentinel `None` when discovery finds no pages or no
primary record is among them; a failure during the batch-append phase is also
caught and yields the sentinel `None` rather than propagating as an
exception. -/
theorem combine_return_sentinels (db : List Record) (title : List Char) :
    (∀ main_page, get_database_pages db title ≠ [] →
      find_main_page (get_database_pages db title) title = some main_page →
      (combine_pages_into_single db title none).1 = some main_page.id) ∧
    (∀ failAt, get_database_pages db title = [] →
      (combine_pages_into_single db title failAt).1 = none) ∧
    (∀ failAt, find_main_page (get_database_pages db title) title = none →
      (combine_pages_into_single db title failAt).1 = none) ∧
    (∀ (k : Nat) main_page, get_database_pages db title ≠ [] →
      find_main_page (get_database_pages db title) title = some main_page →
      k < (paginate (collected_blocks db title main_page) 50).length →
      (combine_pages_into_single db title (some k)).1 = none) := by
  refine ⟨?_, ?_, ?_, ?_⟩
  · intro main_page hne hmain
    rw [combine_pages_success db title main_page hne hmain]
  · intro failAt hempty
    unfold combine_pages_into_single
    rw [if_pos (by rw [hempty]; rfl)]
  · intro failAt hnone
    unfold combine_pages_into_single
    by_cases hE : (get_database_pages db title).isEmpty = true
    · rw [if_pos hE]
    · rw [if_neg hE, hnone]
  · intro k main_page hne hmain hk
    have hE : ¬((get_database_pages db title).isEmpty = true) := by
      rw [Bool.not_eq_true, List.isEmpty_eq_false]
      exact hne
    have hfail := run_batches_fail main_page.id
      (paginate (collected_blocks db title main_page) 50) db 0 k (Nat.zero_le k)
      (by omega)
    unfold combine_pages_into_single
    rw [if_neg hE, hmain]
    simp [hfail]

/-- Witness for the amended C9 on the concrete one-page store. -/
theorem combine_return_sentinels_witness :
    (combine_pages_into_single sample_db "T".toList (some 0)).1 = none :=
  (combine_return_sentinels sample_db "T".toList).2.2.2 0 sample_main
    (by decide) (by decide) (by decide)
